import Mathlib

/-!
Verification of the fireshape inner products (`fireshape/innerproduct.py`).

Shallow embedding of the inner-product family of the repository:
`InnerProduct.get_impl` / `eval` / `riesz_map` and the three concrete
variants `H1InnerProduct`, `LaplaceInnerProduct`, `ElasticityInnerProduct`.

Modelling conventions:
* Python exceptions are an `Except PyError` result (`ValueError` from
  `list.remove`, `NotImplementedError` from the dimension guards).
* Boundary markers (`V.mesh().topology.exterior_facets.unique_markers`)
  are a `List Nat`; `unique_markers` guarantees no duplicates, which
  appears as a `Nodup` hypothesis where needed.
* Finite-element functions produced by `fd.Function(V).interpolate` of a
  constant or linear expression are represented exactly by affine fields
  `x ↦ B x + c` (interpolation of an affine expression into a CG space is
  exact), so the Jacobian of the field is the matrix `B`.
* The external linear algebra (PETSc matrices and solves) is modelled
  over `ℚ`: assembled operators are `Matrix (Fin n) (Fin n) ℚ`, a solve
  with the stored operator is the exact adjugate-based inverse, and the
  firedrake `VectorSpaceBasis.orthonormalize` call is an abstract
  function parameter `orth` (it is external library code).
-/

/-- Python exceptions raised by the code under consideration:
`ValueError` (from `list.remove` in `get_impl`) and
`NotImplementedError` (dimension guards). -/
inductive PyError where
  | valueError
  | notImplementedError
deriving DecidableEq, Repr

/-- The three concrete inner-product classes of the file. -/
inductive Variant where
  | H1
  | Laplace
  | Elasticity
deriving DecidableEq, Repr

/-- An affine vector field `x ↦ B x + c` on `ℚ^d`.  Row `i` of `B` is the
gradient of component `i`, so the Jacobian of the field is `B`.  All
fields interpolated by the nullspace builders are of this shape. -/
structure AffineField (d : Nat) where
  B : Matrix (Fin d) (Fin d) ℚ
  c : Fin d → ℚ
deriving DecidableEq

/-- Value of an affine field at a point. -/
def AffineField.eval {d : Nat} (f : AffineField d) (x : Fin d → ℚ) : Fin d → ℚ :=
  f.B.mulVec x + f.c

/-- Scalar coefficient `mu` of the elasticity weak form, as the code
builds it: either the UFL constant `fd.Constant(1.0)`, or the field
returned by `ElasticityInnerProduct.get_mu`, i.e. the solution of a
scalar diffusion solve `∫∇u·∇v dx = ∫ 0·v dx` with Dirichlet data
`fixedVal` on `fixed_bids` and `freeVal` on `free_bids`.  The diffusion
solve itself is performed by firedrake (`fd.solve`), so it is recorded
symbolically with its exact data. -/
inductive MuCoeff where
  | const (value : ℚ)
  | diffusionSolve (fixedVal freeVal srcVal : ℚ) (fixed_bids free_bids : List Nat)
deriving DecidableEq, Repr

/-- Symbolic weak form returned by `get_weak_form` of each variant:
`h1` is `∫∇u·∇v + ∫u·v`, `laplace` is `∫∇u·∇v`, and `elasticity` is
`∫ mu sym(∇u):sym(∇v)` with the recorded coefficient. -/
inductive WeakForm where
  | h1
  | laplace
  | elasticity (mu : MuCoeff)
deriving DecidableEq, Repr

/-- Nullspace functions of `LaplaceInnerProduct.get_nullspace`: the
constant fields in each component; `NotImplementedError` outside
dimensions 2 and 3. -/
def laplaceNullspace (dim : Nat) : Except PyError (Option (List (AffineField dim))) :=
  match dim with
  | 2 => .ok (some [⟨0, ![1, 0]⟩, ⟨0, ![0, 1]⟩])
  | 3 => .ok (some [⟨0, ![1, 0, 0]⟩, ⟨0, ![0, 1, 0]⟩, ⟨0, ![0, 0, 1]⟩])
  | _ => .error .notImplementedError

/-- The six fields interpolated by `ElasticityInnerProduct.get_nullspace`
in dimension 3, in source order:
`n1, n2, n3` the constant fields, `n4 = (-X[1], X[0], 0)`,
`n5 = (-X[2], 0, X[0])`, `n6 = (0, X[2], X[1])`. -/
def elasticityNullspace3 : List (AffineField 3) :=
  [ ⟨0, ![1, 0, 0]⟩,
    ⟨0, ![0, 1, 0]⟩,
    ⟨0, ![0, 0, 1]⟩,
    ⟨!![0, -1, 0; 1, 0, 0; 0, 0, 0], 0⟩,
    ⟨!![0, 0, -1; 0, 0, 0; 1, 0, 0], 0⟩,
    ⟨!![0, 0, 0; 0, 0, 1; 0, 1, 0], 0⟩ ]

/-- The three fields interpolated by `ElasticityInnerProduct.get_nullspace`
in dimension 2: two constants and `n3 = (X[1], -X[0])`. -/
def elasticityNullspace2 : List (AffineField 2) :=
  [ ⟨0, ![1, 0]⟩,
    ⟨0, ![0, 1]⟩,
    ⟨!![0, 1; -1, 0], 0⟩ ]

/-- Nullspace functions of `ElasticityInnerProduct.get_nullspace`;
`NotImplementedError` outside dimensions 2 and 3. -/
def elasticityNullspaceFn (dim : Nat) : Except PyError (Option (List (AffineField dim))) :=
  match dim with
  | 2 => .ok (some elasticityNullspace2)
  | 3 => .ok (some elasticityNullspace3)
  | _ => .error .notImplementedError

/-- Dispatch of `get_nullspace` over the three variants.
`H1InnerProduct.get_nullspace` returns `None` unconditionally. -/
def get_nullspace (v : Variant) (dim : Nat) :
    Except PyError (Option (List (AffineField dim))) :=
  match v with
  | .H1 => .ok none
  | .Laplace => laplaceNullspace dim
  | .Elasticity => elasticityNullspaceFn dim

/-- The free-boundary-id computation of `get_impl` (lines 41-44): start
from the unique markers and call Python `list.remove(bid)` for each fixed
bid in order.  `list.remove` deletes the first occurrence and raises
`ValueError` when the element is absent. -/
def removeBids (free : List Nat) (fixed : List Nat) : Except PyError (List Nat) :=
  match fixed with
  | [] => .ok free
  | b :: bs => if b ∈ free then removeBids (free.erase b) bs else .error .valueError

/-- `ElasticityInnerProduct.get_mu`: one scalar diffusion solve with
Dirichlet value 1 on the fixed bids, value 10 on the free bids, and zero
source. -/
def get_mu (fixed_bids free_bids : List Nat) : MuCoeff :=
  .diffusionSolve 1 10 0 fixed_bids free_bids

/-- `get_weak_form` of each variant.  For elasticity the source reads
`if self.fixed_bids is not None and len(self.fixed_bids) > 0` then
`mu = self.get_mu(V)` else `mu = fd.Constant(1.0)`. -/
def get_weak_form (v : Variant) (fixed_bids free_bids : List Nat) : WeakForm :=
  match v with
  | .H1 => .h1
  | .Laplace => .laplace
  | .Elasticity =>
      .elasticity (if 0 < fixed_bids.length then get_mu fixed_bids free_bids
                   else .const 1)

/-- The nullspace block of `get_impl` (lines 49-54): only entered when
`len(self.fixed_bids) == 0`; when the concrete model returns functions,
they are wrapped in a `fd.VectorSpaceBasis` and orthonormalized.  The
orthonormalization is the external `orth` parameter. -/
def nullspaceStep (v : Variant) (fixed_bids : List Nat) (dim : Nat)
    (orth : List (AffineField dim) → List (AffineField dim)) :
    Except PyError (Option (List (AffineField dim))) :=
  if fixed_bids.length = 0 then
    match get_nullspace v dim with
    | .ok none => .ok none
    | .ok (some fs) => .ok (some (orth fs))
    | .error e => .error e
  else .ok none

/-- The Dirichlet block of `get_impl` (lines 57-67): when
`len(self.fixed_bids) > 0`, a zero vector of dimension `V.value_size` is
built (raising `NotImplementedError` for any dimension other than 2 or
3) and a homogeneous `DirichletBC` on the fixed bids is created; the
result records the bids carrying the boundary condition. -/
def bcStep (fixed_bids : List Nat) (dim : Nat) :
    Except PyError (Option (List Nat)) :=
  if 0 < fixed_bids.length then
    if dim = 2 then .ok (some fixed_bids)
    else if dim = 3 then .ok (some fixed_bids)
    else .error .notImplementedError
  else .ok none

/-- State assembled by a successful `get_impl` call: the computed free
bids, the (orthonormalized) nullspace, the Dirichlet data, the symbolic
weak form handed to `fd.assemble`, the two nullspace slots passed to
`fd.LinearSolver` (`nullspace=nsp, transpose_nullspace=nsp`), and the
`interpolated` flag (set when an interpolation matrix is supplied; the
matrix-level effect of that branch is modelled separately below). -/
structure BoundState (dim : Nat) where
  free_bids : List Nat
  nsp : Option (List (AffineField dim))
  bc : Option (List Nat)
  weak_form : WeakForm
  ls_nullspace : Option (List (AffineField dim))
  ls_transpose_nullspace : Option (List (AffineField dim))
  interpolated : Bool
deriving DecidableEq

/-- `InnerProduct.get_impl` without an interpolation matrix, in source
order: free-bid computation, nullspace block, Dirichlet block, weak-form
construction, assembly and `fd.LinearSolver` creation (the solver gets
`nsp` as both nullspace and transpose nullspace). -/
def get_impl (v : Variant) (fixed_bids markers : List Nat) (dim : Nat)
    (orth : List (AffineField dim) → List (AffineField dim)) :
    Except PyError (BoundState dim) :=
  match removeBids markers fixed_bids with
  | .error e => .error e
  | .ok free_bids =>
    match nullspaceStep v fixed_bids dim orth with
    | .error e => .error e
    | .ok nsp =>
      match bcStep fixed_bids dim with
      | .error e => .error e
      | .ok bc =>
        .ok { free_bids := free_bids
              nsp := nsp
              bc := bc
              weak_form := get_weak_form v fixed_bids free_bids
              ls_nullspace := nsp
              ls_transpose_nullspace := nsp
              interpolated := false }

/-- The bound state produced by the Laplace variant in dimension 2 with
no fixed bids on the single marker `1` and identity orthonormalization;
used to instantiate theorems at a concrete successful bind. -/
def laplaceBound2 : BoundState 2 :=
  { free_bids := [1]
    nsp := some [⟨0, ![1, 0]⟩, ⟨0, ![0, 1]⟩]
    bc := none
    weak_form := .laplace
    ls_nullspace := some [⟨0, ![1, 0]⟩, ⟨0, ![0, 1]⟩]
    ls_transpose_nullspace := some [⟨0, ![1, 0]⟩, ⟨0, ![0, 1]⟩]
    interpolated := false }

/-- The bound state produced by the Elasticity variant in dimension 2
with fixed bids `[1]` on markers `[1, 2]`; used to instantiate theorems
at a concrete successful bind. -/
def elasticityBound2 : BoundState 2 :=
  { free_bids := [2]
    nsp := none
    bc := some [1]
    weak_form := .elasticity (.diffusionSolve 1 10 0 [1] [2])
    ls_nullspace := none
    ls_transpose_nullspace := none
    interpolated := false }

/-- `InnerProduct.eval` (lines 110-116): create `A_u`, multiply
`A.mult(uvec, A_u)`, return `vvec.dot(A_u)`, i.e. `v ⬝ (A u)` for the
stored operating matrix (the assembled `A`, or the patched sandwich `J`
when interpolated — the same code path reads `self.A` in both cases).
It reads `u` and `v` through read-only views and writes only the fresh
local vector `A_u`, so it is a pure function of its inputs. -/
def InnerProduct.eval {n : Nat} (A : Matrix (Fin n) (Fin n) ℚ)
    (u v : Fin n → ℚ) : ℚ :=
  Matrix.dotProduct v (A.mulVec u)

/-- Exact model of the stored linear solver: both `self.ls.solve` (the
CG/AMG `fd.LinearSolver` built at bind time) and `self.Aksp.solve` (the
Cholesky/MUMPS KSP of the interpolated branch) solve `M · out = v` with
the operating matrix `M` fixed at bind time.  The exact solution for an
invertible `M` is written with the adjugate so the definition stays
computable. -/
def lsSolve {n : Nat} (M : Matrix (Fin n) (Fin n) ℚ) (v : Fin n → ℚ) : Fin n → ℚ :=
  Matrix.mulVec ((M.det)⁻¹ • M.adjugate) v

/-- `InnerProduct.riesz_map` (lines 118-129): dual-to-primal solve with
the operator stored at bind time; no matrix is reassembled per call. -/
def InnerProduct.riesz_map {n : Nat} (A : Matrix (Fin n) (Fin n) ℚ)
    (v : Fin n → ℚ) : Fin n → ℚ :=
  lsSolve A v

/-- The congruence transform `self.A.PtAP(I)` of the interpolated branch
(line 81): `Iᵀ * A * I`. -/
def ptap {m n : Nat} (A : Matrix (Fin m) (Fin m) ℚ)
    (I : Matrix (Fin m) (Fin n) ℚ) : Matrix (Fin n) (Fin n) ℚ :=
  I.transpose * A * I

/-- Squared 2-norm of row `r`, the square of `np.linalg.norm(vals)` in
the zero-row scan (line 90); in the model every entry of the row
participates (unstored sparse entries are zero and do not change the
norm).  Since the norm is nonnegative and `1e-13 > 0`,
`norm < 1e-13 ↔ normSq < 1e-26`, so the comparison is kept in `ℚ` as a
squared comparison. -/
def rowNormSq {n : Nat} (J : Matrix (Fin n) (Fin n) ℚ) (r : Fin n) : ℚ :=
  ∑ c, (J r c) ^ 2

/-- Square of the `1e-13` row-norm threshold of line 91. -/
def epsSq : ℚ := 1 / 10 ^ 26

/-- The `zero_rows` list collected by the first loop (lines 88-92):
all rows of the unpatched sandwich whose norm is below the threshold. -/
def zeroRowsList {n : Nat} (J : Matrix (Fin n) (Fin n) ℚ) : List (Fin n) :=
  (List.finRange n).filter (fun r => decide (rowNormSq J r < epsSq))

/-- One `ITAI.setValue(row, row, 1.0)` call (line 94): overwrite the
diagonal entry of the given row with 1, leaving everything else. -/
def setDiagOne {n : Nat} (J : Matrix (Fin n) (Fin n) ℚ) (r : Fin n) :
    Matrix (Fin n) (Fin n) ℚ :=
  fun i c => if i = r ∧ c = r then 1 else J i c

/-- The second loop plus `ITAI.assemble()` (lines 93-95): apply a
`setValue` patch for every collected row, then finalize.  No error path
exists in this code. -/
def patchRows {n : Nat} (J : Matrix (Fin n) (Fin n) ℚ) : Matrix (Fin n) (Fin n) ℚ :=
  (zeroRowsList J).foldl setDiagOne J

/-- The operating matrix stored in `self.A` by the interpolated branch
of `get_impl` (lines 79-98): the patched sandwich `patchRows (Iᵀ A I)`. -/
def interpOperator {m n : Nat} (A : Matrix (Fin m) (Fin m) ℚ)
    (I : Matrix (Fin m) (Fin n) ℚ) : Matrix (Fin n) (Fin n) ℚ :=
  patchRows (ptap A I)

/-- Symmetric part of a Jacobian matrix, `fd.sym(fd.grad(u))` for an
affine field with Jacobian `M`. -/
def symPart {d : Nat} (M : Matrix (Fin d) (Fin d) ℚ) : Matrix (Fin d) (Fin d) ℚ :=
  (1 / 2 : ℚ) • (M + M.transpose)

/-- Frobenius contraction `M : N` of two matrices, the `fd.inner` of two
tensor fields. -/
def frob {d : Nat} (M N : Matrix (Fin d) (Fin d) ℚ) : ℚ :=
  ∑ i, ∑ j, M i j * N i j

/-- Pointwise integrand `mu * sym(∇u) : sym(∇v)` of the elasticity weak
form `ElasticityInnerProduct.get_weak_form` evaluated on two affine
fields (whose Jacobians are constant in space), with scalar coefficient
value `mu` at the point. -/
def elasticityIntegrand {d : Nat} (mu : ℚ) (u v : AffineField d) : ℚ :=
  mu * frob (symPart u.B) (symPart v.B)

/-- Assembled bilinear value `a(u, v)` of the elasticity form against an
arbitrary test field: any finite-element assembly is a finite quadrature
sum `∑ q w q * mu q * sym(∇u)(x_q) : sym(∇v)(x_q)`; for an affine trial
field `u` the factor `sym(∇u)` is the constant matrix `symPart u.B`, and
the test-field Jacobians at the quadrature points are arbitrary
matrices `Gv q`. -/
def elasticityAssembled {d q : Nat} (w mu : Fin q → ℚ) (u : AffineField d)
    (Gv : Fin q → Matrix (Fin d) (Fin d) ℚ) : ℚ :=
  ∑ i, w i * mu i * frob (symPart u.B) (symPart (Gv i))

/-- Refinement target for the interpolated case of the spec sentence
"returns vᵗAu (or vᵗJv in the interpolated case)", written exactly from
the words of the spec: the quadratic form of the stored sandwich at `v`.
This is compared against `InnerProduct.eval` below. -/
def eval_interpolated_claim {n : Nat} (J : Matrix (Fin n) (Fin n) ℚ)
    (_u v : Fin n → ℚ) : ℚ :=
  Matrix.dotProduct v (J.mulVec v)

theorem foldl_setDiagOne {n : Nat} (rs : List (Fin n))
    (M : Matrix (Fin n) (Fin n) ℚ) (i c : Fin n) :
    (rs.foldl setDiagOne M) i c = if i = c ∧ i ∈ rs then 1 else M i c := by
  induction rs generalizing M with
  | nil => simp
  | cons r rs ih =>
    simp only [List.foldl_cons, ih, setDiagOne, List.mem_cons]
    by_cases hic : i = c
    · subst hic
      by_cases hir : i ∈ rs <;> by_cases hr : i = r <;> simp [hir, hr]
    · have hnr : ¬(i = r ∧ c = r) := fun hrr => hic (hrr.1.trans hrr.2.symm)
      simp [hic, hnr]

theorem mem_zeroRowsList {n : Nat} (J : Matrix (Fin n) (Fin n) ℚ) (r : Fin n) :
    r ∈ zeroRowsList J ↔ rowNormSq J r < epsSq := by
  simp [zeroRowsList, List.mem_filter, List.mem_finRange]

/-- C3: when an interpolation matrix `I` is supplied, the operating
matrix stored in `self.A` is the sandwich `J = Iᵀ A I` with, for every
row of `J` whose 2-norm is below `1e-13` (equivalently, squared norm
below `1e-26`), the diagonal entry overwritten with `1.0` and all other
entries unchanged; the patches are all applied before the final
`assemble()`, and no error is raised on near-zero rows (the patching
function is total). -/
theorem interp_sandwich_patch {m n : Nat} (A : Matrix (Fin m) (Fin m) ℚ)
    (I : Matrix (Fin m) (Fin n) ℚ) (r c : Fin n) :
    interpOperator A I r c =
      if rowNormSq (ptap A I) r < epsSq ∧ r = c then 1 else ptap A I r c := by
  unfold interpOperator patchRows
  rw [foldl_setDiagOne]
  simp only [mem_zeroRowsList]
  by_cases h1 : rowNormSq (ptap A I) r < epsSq <;> by_cases h2 : r = c
  · subst h2; simp [h1]
  · simp [h1, h2, fun h : r = c => h2 h]
  · subst h2; simp [h1]
  · simp [h1, h2, fun h : r = c => h2 h]

/-- C4: `riesz_map` applies the solver held since bind time to solve
`M · out = v` with the stored operating matrix `M` (the assembled `A`,
or the patched sandwich `J` in the interpolated branch — both code paths
only call `solve` on the prefactored handle, reassembling nothing); in
particular the round trip holds: if `d = M · p` then
`riesz_map d = p` whenever `M` is invertible. -/
theorem riesz_map_round_trip {n : Nat} (M : Matrix (Fin n) (Fin n) ℚ)
    (p : Fin n → ℚ) (h : M.det ≠ 0) :
    InnerProduct.riesz_map M (M.mulVec p) = p := by
  unfold InnerProduct.riesz_map lsSolve
  rw [Matrix.mulVec_mulVec, Matrix.smul_mul, Matrix.adjugate_mul, smul_smul,
    inv_mul_cancel₀ h, one_smul, Matrix.one_mulVec]

/-- Witness for C4 at the identity operator and `p = (3, 5)`. -/
theorem riesz_map_round_trip_witness :
    ((1 : Matrix (Fin 2) (Fin 2) ℚ).det ≠ 0) ∧
      InnerProduct.riesz_map (1 : Matrix (Fin 2) (Fin 2) ℚ)
        ((1 : Matrix (Fin 2) (Fin 2) ℚ).mulVec ![3, 5]) = ![3, 5] :=
  ⟨by simp [Matrix.det_one], riesz_map_round_trip 1 ![3, 5] (by simp [Matrix.det_one])⟩

/-- C5 counterexample: in the interpolated case the claim reads the
returned scalar as `vᵗJv`, but `eval` computes `v ⬝ (J u)`; at
`J = 1`, `u = (1,0)`, `v = (0,1)` the code returns `0` while the claimed
expression is `1`. -/
theorem eval_interpolated_counterexample :
    InnerProduct.eval (1 : Matrix (Fin 2) (Fin 2) ℚ) ![1, 0] ![0, 1] ≠
      eval_interpolated_claim (1 : Matrix (Fin 2) (Fin 2) ℚ) ![1, 0] ![0, 1] := by
  simp [InnerProduct.eval, eval_interpolated_claim, Matrix.dotProduct, Matrix.mulVec,
    Fin.sum_univ_two, Matrix.one_apply, Matrix.cons_val_zero, Matrix.cons_val_one,
    Matrix.head_cons]

/-- C5 (amended): for the stored operating matrix `M` (the assembled `A`
in the plain case, the patched sandwich `J` in the interpolated case —
`eval` reads `self.A` either way), `eval(u, v)` returns the bilinear
value `vᵗ M u = ∑ i ∑ j v i · M i j · u j`; the function is pure, a
function of its inputs alone. -/
theorem eval_returns_vAu {n : Nat} (M : Matrix (Fin n) (Fin n) ℚ)
    (u v : Fin n → ℚ) :
    InnerProduct.eval M u v = ∑ i, ∑ j, v i * M i j * u j := by
  unfold InnerProduct.eval
  simp [Matrix.dotProduct, Matrix.mulVec, Finset.mul_sum, mul_assoc]

/-- C9: whenever the assembled operator is symmetric, `eval` is
symmetric in its two arguments: `eval(u, v) = eval(v, u)`. -/
theorem eval_symmetric {n : Nat} (M : Matrix (Fin n) (Fin n) ℚ)
    (u v : Fin n → ℚ) (h : M.IsSymm) :
    InnerProduct.eval M u v = InnerProduct.eval M v u := by
  unfold InnerProduct.eval
  rw [Matrix.dotProduct_mulVec, ← Matrix.mulVec_transpose,
    show M.transpose = M from h, Matrix.dotProduct_comm]

/-- Witness for C9 at a concrete symmetric matrix. -/
theorem eval_symmetric_witness :
    (!![1, 2; 2, 3] : Matrix (Fin 2) (Fin 2) ℚ).IsSymm ∧
      InnerProduct.eval (!![1, 2; 2, 3] : Matrix (Fin 2) (Fin 2) ℚ) ![1, 0] ![0, 1] =
        InnerProduct.eval (!![1, 2; 2, 3] : Matrix (Fin 2) (Fin 2) ℚ) ![0, 1] ![1, 0] :=
  ⟨by ext i j; fin_cases i <;> fin_cases j <;> rfl,
    eval_symmetric _ ![1, 0] ![0, 1]
      (by ext i j; fin_cases i <;> fin_cases j <;> rfl)⟩

theorem removeBids_ok_of_subset :
    ∀ (fixed markers : List Nat), markers.Nodup → fixed.Nodup →
      (∀ b ∈ fixed, b ∈ markers) →
      ∃ free, removeBids markers fixed = .ok free ∧
        (∀ x ∈ free, x ∉ fixed) ∧ (∀ x, x ∈ markers ↔ x ∈ free ∨ x ∈ fixed) := by
  intro fixed
  induction fixed with
  | nil =>
    intro markers _ _ _
    exact ⟨markers, rfl, by simp, by simp⟩
  | cons b bs ih =>
    intro markers hm hf hsub
    have hb : b ∈ markers := hsub b (List.mem_cons_self b bs)
    have hbnotbs : b ∉ bs := (List.nodup_cons.mp hf).1
    have hbsnodup : bs.Nodup := (List.nodup_cons.mp hf).2
    have hsub2 : ∀ x ∈ bs, x ∈ markers.erase b := by
      intro x hx
      have hxb : x ≠ b := fun hxe => hbnotbs (hxe ▸ hx)
      exact (List.mem_erase_of_ne hxb).mpr (hsub x (List.mem_cons_of_mem b hx))
    obtain ⟨free, heq, hdisj, hiff⟩ := ih (markers.erase b) (hm.erase b) hbsnodup hsub2
    refine ⟨free, ?_, ?_, ?_⟩
    · show removeBids markers (b :: bs) = .ok free
      rw [removeBids, if_pos hb]
      exact heq
    · intro x hx
      have hxe : x ∈ markers.erase b := (hiff x).mpr (Or.inl hx)
      have hxb : x ≠ b := (hm.mem_erase_iff.mp hxe).1
      simp only [List.mem_cons, not_or]
      exact ⟨hxb, hdisj x hx⟩
    · intro x
      by_cases hxb : x = b
      · subst hxb
        simp [hb]
      · constructor
        · intro hxm
          have hxe : x ∈ markers.erase b := (List.mem_erase_of_ne hxb).mpr hxm
          rcases (hiff x).mp hxe with h1 | h1
          · exact Or.inl h1
          · exact Or.inr (List.mem_cons_of_mem b h1)
        · intro h1
          rcases h1 with h1 | h1
          · exact List.mem_of_mem_erase ((hiff x).mpr (Or.inl h1))
          · rcases List.mem_cons.mp h1 with h2 | h2
            · exact absurd h2 hxb
            · exact List.mem_of_mem_erase ((hiff x).mpr (Or.inr h2))

theorem removeBids_error_of_not_mem :
    ∀ (fixed markers : List Nat), (∃ b ∈ fixed, b ∉ markers) →
      removeBids markers fixed = .error .valueError := by
  intro fixed
  induction fixed with
  | nil =>
    intro markers h
    obtain ⟨b, hb, _⟩ := h
    exact absurd hb (List.not_mem_nil b)
  | cons b bs ih =>
    intro markers h
    obtain ⟨x, hx, hxm⟩ := h
    by_cases hbm : b ∈ markers
    · rw [removeBids, if_pos hbm]
      have hxbs : x ∈ bs := by
        rcases List.mem_cons.mp hx with h1 | h1
        · exact absurd (h1 ▸ hbm) hxm
        · exact h1
      exact ih (markers.erase b) ⟨x, hxbs, fun hmem => hxm (List.mem_of_mem_erase hmem)⟩
    · rw [removeBids, if_neg hbm]

/-- C8: the free-bid computation of `get_impl` (iterated `list.remove`
over the unique markers): when every fixed id is a valid marker and the
fixed ids have no duplicates, it succeeds and the resulting free bids
are disjoint from the fixed bids and partition the marker set with them;
when some fixed id is not a valid marker, `get_impl` fails with the
`ValueError` raised by `list.remove`. -/
theorem free_bids_partition (v : Variant) (fixed markers : List Nat) (dim : Nat)
    (orth : List (AffineField dim) → List (AffineField dim))
    (hm : markers.Nodup) (hf : fixed.Nodup) :
    ((∀ b ∈ fixed, b ∈ markers) →
      ∃ free, removeBids markers fixed = .ok free ∧
        (∀ x ∈ free, x ∉ fixed) ∧ (∀ x, x ∈ markers ↔ x ∈ free ∨ x ∈ fixed)) ∧
    ((∃ b ∈ fixed, b ∉ markers) →
      get_impl v fixed markers dim orth = .error .valueError) := by
  constructor
  · exact removeBids_ok_of_subset fixed markers hm hf
  · intro h
    rw [get_impl, removeBids_error_of_not_mem fixed markers h]

/-- Witness for C8 on the markers `[1, 2, 3]` with fixed bids `[2]`. -/
theorem free_bids_partition_witness :
    ([1, 2, 3] : List Nat).Nodup ∧ ([2] : List Nat).Nodup ∧
      (∃ free, removeBids [1, 2, 3] [2] = .ok free ∧
        (∀ x ∈ free, x ∉ ([2] : List Nat)) ∧
        (∀ x, x ∈ ([1, 2, 3] : List Nat) ↔ x ∈ free ∨ x ∈ ([2] : List Nat))) :=
  ⟨by decide, by decide,
    (free_bids_partition Variant.H1 [2] [1, 2, 3] 2 (fun l => l) (by decide)
      (by decide)).1 (by decide)⟩

theorem removeBids_error_of_dup :
    ∀ (fixed markers : List Nat), markers.Nodup → ¬ fixed.Nodup →
      removeBids markers fixed = .error .valueError := by
  intro fixed
  induction fixed with
  | nil =>
    intro markers _ hdup
    exact absurd List.nodup_nil hdup
  | cons b bs ih =>
    intro markers hm hdup
    by_cases hbm : b ∈ markers
    · rw [removeBids, if_pos hbm]
      by_cases hbs : bs.Nodup
      · have hbbs : b ∈ bs := by
          by_contra hnb
          exact hdup (List.nodup_cons.mpr ⟨hnb, hbs⟩)
        have hnot : b ∉ markers.erase b := fun hmem =>
          (hm.mem_erase_iff.mp hmem).1 rfl
        exact removeBids_error_of_not_mem bs (markers.erase b) ⟨b, hbbs, hnot⟩
      · exact ih (markers.erase b) (hm.erase b) hbs
    · rw [removeBids, if_neg hbm]

/-- C10: a repeated boundary id anywhere in `fixed_bids` makes bind fail
with `ValueError` even when the repeated id is a valid boundary id: each
`list.remove` call deletes exactly one occurrence from the
duplicate-free marker list, so by the time the second occurrence of the
repeated id is processed no occurrence is left (or an earlier invalid id
has already raised the same `ValueError`). -/
theorem duplicate_fixed_bid_error (v : Variant) (fixed markers : List Nat)
    (dim : Nat) (orth : List (AffineField dim) → List (AffineField dim))
    (hm : markers.Nodup) (hdup : ¬ fixed.Nodup) :
    get_impl v fixed markers dim orth = .error .valueError := by
  rw [get_impl, removeBids_error_of_dup fixed markers hm hdup]

/-- Witness for C10: fixed bids `[2, 1, 1]` on markers `[1, 2, 3]` — the
duplicated id `1` is a valid boundary id and sits past the head of the
list. -/
theorem duplicate_fixed_bid_error_witness :
    ([1, 2, 3] : List Nat).Nodup ∧ ¬ ([2, 1, 1] : List Nat).Nodup ∧
      get_impl Variant.H1 [2, 1, 1] [1, 2, 3] 2 (fun l => l) =
        .error .valueError :=
  ⟨by decide, by decide,
    duplicate_fixed_bid_error Variant.H1 [2, 1, 1] [1, 2, 3] 2 (fun l => l)
      (by decide) (by decide)⟩

theorem get_nullspace_err (v : Variant) (dim : Nat) (h2 : dim ≠ 2) (h3 : dim ≠ 3)
    (hv : v ≠ .H1) : get_nullspace v dim = .error .notImplementedError := by
  obtain _ | _ | _ | _ | d := dim
  all_goals
    cases v <;>
      first
        | exact absurd rfl hv
        | exact absurd rfl h2
        | exact absurd rfl h3
        | rfl

/-- C2 (amended): for a value dimension outside `{2, 3}`: with non-empty
`fixed_bids` all three variants fail with `NotImplementedError` (from the
zero-vector construction of the Dirichlet block); with empty
`fixed_bids`, Laplace and Elasticity fail with `NotImplementedError`
(raised inside their `get_nullspace`), but H1 performs no dimension
check at all and binds successfully. -/
theorem dim_guard_amended (v : Variant) (fixed markers : List Nat) (dim : Nat)
    (orth : List (AffineField dim) → List (AffineField dim))
    (h2 : dim ≠ 2) (h3 : dim ≠ 3) :
    (∀ free, removeBids markers fixed = .ok free → fixed ≠ [] →
        get_impl v fixed markers dim orth = .error .notImplementedError) ∧
    (fixed = [] → v ≠ .H1 →
        get_impl v fixed markers dim orth = .error .notImplementedError) ∧
    (fixed = [] →
        get_impl Variant.H1 fixed markers dim orth = .ok
          { free_bids := markers, nsp := none, bc := none, weak_form := .h1,
            ls_nullspace := none, ls_transpose_nullspace := none,
            interpolated := false }) := by
  refine ⟨?_, ?_, ?_⟩
  · intro free hfree hne
    have hlen : ¬ fixed.length = 0 := fun hl => hne (List.length_eq_zero.mp hl)
    have hns : nullspaceStep v fixed dim orth = .ok none := by
      rw [nullspaceStep, if_neg hlen]
    have hbc : bcStep fixed dim = .error .notImplementedError := by
      rw [bcStep, if_pos (List.length_pos.mpr hne), if_neg h2, if_neg h3]
    simp only [get_impl, hfree, hns, hbc]
  · intro hfix hv
    subst hfix
    have hc : ([] : List Nat).length = 0 := rfl
    have hns : nullspaceStep v [] dim orth = .error .notImplementedError := by
      rw [nullspaceStep, if_pos hc, get_nullspace_err v dim h2 h3 hv]
    simp only [get_impl, removeBids, hns]
  · intro hfix
    subst hfix
    rfl

/-- C2 counterexample: the H1 variant with empty `fixed_bids` and value
dimension 7 binds without any error, contradicting "raises in all three
variants, regardless of whether fixed_bids is empty". -/
theorem dim_guard_counterexample :
    get_impl Variant.H1 [] [1, 2] 7 (fun l => l) = .ok
      { free_bids := [1, 2], nsp := none, bc := none, weak_form := .h1,
        ls_nullspace := none, ls_transpose_nullspace := none,
        interpolated := false } := rfl

/-- Witness for C2 (amended) at dimension 4 with the Laplace variant. -/
theorem dim_guard_amended_witness :
    (4 ≠ 2) ∧ (4 ≠ 3) ∧
      get_impl Variant.Laplace [] [1, 2] 4 (fun l => l) =
        .error .notImplementedError :=
  ⟨by decide, by decide,
    (dim_guard_amended Variant.Laplace [] [1, 2] 4 (fun l => l) (by decide)
      (by decide)).2.1 rfl (by decide)⟩

/-- C6: a nullspace is attached if and only if `fixed_bids` is empty and
the concrete model declares one; when attached it is the orthonormalized
basis, stored as both the `nullspace` and the `transpose_nullspace` of
the solver. -/
theorem nullspace_attach_iff (v : Variant) (fixed markers : List Nat) (dim : Nat)
    (orth : List (AffineField dim) → List (AffineField dim)) (st : BoundState dim)
    (h : get_impl v fixed markers dim orth = .ok st) :
    st.ls_transpose_nullspace = st.ls_nullspace ∧
    (∀ fs, fixed = [] → get_nullspace v dim = .ok (some fs) →
        st.ls_nullspace = some (orth fs)) ∧
    (st.ls_nullspace ≠ none →
        fixed = [] ∧ ∃ fs, get_nullspace v dim = .ok (some fs)) := by
  rw [get_impl] at h
  rcases hr : removeBids markers fixed with e | free <;> rw [hr] at h
  · exact absurd h (by simp)
  rcases hn : nullspaceStep v fixed dim orth with e | nsp <;> rw [hn] at h
  · exact absurd h (by simp)
  rcases hb : bcStep fixed dim with e | bc <;> rw [hb] at h
  · exact absurd h (by simp)
  simp only [Except.ok.injEq] at h
  subst h
  have hc : ([] : List Nat).length = 0 := rfl
  refine ⟨rfl, ?_, ?_⟩
  · intro fs hfix hns
    subst hfix
    rw [nullspaceStep, if_pos hc, hns] at hn
    exact (Except.ok.inj hn).symm
  · intro hne
    cases fixed with
    | nil =>
      rw [nullspaceStep, if_pos hc] at hn
      rcases hg : get_nullspace v dim with e | o <;> rw [hg] at hn
      · exact absurd hn (by simp)
      cases o with
      | none => exact absurd (Except.ok.inj hn).symm hne
      | some fs => exact ⟨rfl, fs, rfl⟩
    | cons b bs =>
      rw [nullspaceStep, if_neg (by simp)] at hn
      exact absurd (Except.ok.inj hn).symm hne

/-- Witness for C6: Laplace variant in dimension 2 with no fixed bids;
the two declared constant fields come back (through `orth`) as both
nullspace slots of the solver. -/
theorem nullspace_attach_iff_witness :
    get_impl Variant.Laplace [] [1] 2 (fun l => l) = .ok laplaceBound2 ∧
      laplaceBound2.ls_transpose_nullspace = laplaceBound2.ls_nullspace :=
  ⟨rfl,
    (nullspace_attach_iff Variant.Laplace [] [1] 2 (fun l => l) laplaceBound2
      rfl).1⟩

/-- C7: in the Elasticity variant the weak-form coefficient is the
constant `1.0` when `fixed_bids` is empty, and otherwise the result of
the single per-bind scalar diffusion solve of `get_mu`: zero source,
Dirichlet value 1 on the fixed bids and 10 on the free bids. -/
theorem elasticity_mu_policy (fixed markers : List Nat) (dim : Nat)
    (orth : List (AffineField dim) → List (AffineField dim)) (st : BoundState dim)
    (h : get_impl Variant.Elasticity fixed markers dim orth = .ok st) :
    (fixed = [] → st.weak_form = .elasticity (.const 1)) ∧
    (fixed ≠ [] →
        st.weak_form = .elasticity (.diffusionSolve 1 10 0 fixed st.free_bids)) := by
  rw [get_impl] at h
  rcases hr : removeBids markers fixed with e | free <;> rw [hr] at h
  · exact absurd h (by simp)
  rcases hn : nullspaceStep Variant.Elasticity fixed dim orth with e | nsp <;>
    rw [hn] at h
  · exact absurd h (by simp)
  rcases hb : bcStep fixed dim with e | bc <;> rw [hb] at h
  · exact absurd h (by simp)
  simp only [Except.ok.injEq] at h
  subst h
  constructor
  · intro hfix
    subst hfix
    rfl
  · intro hne
    show WeakForm.elasticity _ = _
    rw [if_pos (List.length_pos.mpr hne)]
    rfl

/-- Witness for C7: Elasticity variant, fixed bids `[1]` on markers
`[1, 2]`, so the free bids are `[2]` and the recorded coefficient is the
diffusion solve with values 1 and 10. -/
theorem elasticity_mu_policy_witness :
    get_impl Variant.Elasticity [1] [1, 2] 2 (fun l => l) = .ok elasticityBound2 ∧
      ([1] : List Nat) ≠ [] ∧
      elasticityBound2.weak_form =
        .elasticity (.diffusionSolve 1 10 0 [1] elasticityBound2.free_bids) :=
  ⟨rfl, by decide,
    (elasticity_mu_policy [1] [1, 2] 2 (fun l => l) elasticityBound2 rfl).2
      (by decide)⟩

/-- C1 (code bug): in dimension 3 the sixth declared nullspace field of
`ElasticityInnerProduct.get_nullspace` is `n6 = (0, X[2], X[1])`, whose
Jacobian `B` is symmetric rather than antisymmetric: it is not a
rigid-rotation field (a rotation about the first axis would be
`(0, -X[2], X[1])` or `(0, X[2], -X[1])`), `sym(∇n6) = B ≠ 0`, and the
elasticity integrand `mu * sym(∇n6) : sym(∇n6)` with `mu = 1` (the
coefficient when `fixed_bids` is empty) equals `2`, not `0` — so the
declared vector is not annihilated by the assembled operator, although
the docstring of `get_nullspace` says the returned list is the
nullspace. -/
theorem elasticity_nullspace_n6_not_annihilated :
    get_nullspace Variant.Elasticity 3 = .ok (some elasticityNullspace3) ∧
    symPart ((elasticityNullspace3.getD 5 ⟨0, 0⟩).B) ≠ 0 ∧
    elasticityIntegrand 1 (elasticityNullspace3.getD 5 ⟨0, 0⟩)
      (elasticityNullspace3.getD 5 ⟨0, 0⟩) = 2 ∧
    (2 : ℚ) ≠ 0 := by
  have h12 : symPart ((elasticityNullspace3.getD 5 ⟨0, 0⟩).B) 1 2 = 1 := by
    show symPart !![0, 0, 0; 0, 0, 1; 0, 1, 0] 1 2 = 1
    simp only [symPart, Matrix.smul_apply, Matrix.add_apply, Matrix.transpose_apply,
      Matrix.of_apply, Matrix.cons_val_zero, Matrix.cons_val_one, Matrix.cons_val_two,
      Matrix.head_cons, Matrix.tail_cons]
    norm_num
  refine ⟨rfl, ?_, ?_, by norm_num⟩
  · intro hz
    rw [hz] at h12
    simp [Matrix.zero_apply] at h12
  · show elasticityIntegrand 1 ⟨!![0, 0, 0; 0, 0, 1; 0, 1, 0], 0⟩
        ⟨!![0, 0, 0; 0, 0, 1; 0, 1, 0], 0⟩ = 2
    simp only [elasticityIntegrand, frob, symPart, Fin.sum_univ_three,
      Matrix.smul_apply, Matrix.add_apply, Matrix.transpose_apply, Matrix.of_apply,
      Matrix.cons_val_zero, Matrix.cons_val_one, Matrix.cons_val_two,
      Matrix.head_cons, Matrix.tail_cons]
    norm_num
